import Mathlib

/-!
# Verification of the exchange-scripts batch execution harness

This file embeds the Go batch task-execution harness (`run_all.go`, the
parallel/buffered variant, and its sequential/streamed sibling) as Lean
definitions and proves the specified properties about them.

External effects are modelled by oracles:
* an `ExecOracle` maps a script path to the result of running
  `python3 <path>` (combined output bytes, the error returned by
  `cmd.Run`/`cmd.CombinedOutput`, and the wall-clock duration);
* a `StatOracle` maps a path to the outcome of `os.Stat` (success, an
  error satisfying `os.IsNotExist`, or any other error).

Pure string manipulation (`filepath.Join`, `filepath.Clean`,
`filepath.Base`, `strings.TrimSuffix`) is translated directly.
-/

/-- The error value a Go `exec.Cmd` run can produce: either the process ran
and terminated abnormally / with a nonzero status (`*exec.ExitError`), or
the process could not be launched at all (missing interpreter, permission
denied, ...). `none` at use sites corresponds to Go's `nil` error. -/
inductive GoError : Type
  | exitError (code : Nat)
  | launchError (msg : String)
deriving DecidableEq, Repr

/-- What running `python3 <path>` yields: the combined stdout+stderr bytes,
the error (or `none` for a clean zero exit), and the measured duration in
abstract clock ticks. -/
structure ExecOutcome where
  output : String
  err : Option GoError
  duration : Nat
deriving DecidableEq, Repr

/-- Oracle describing the external world of child processes. -/
abbrev ExecOracle := String → ExecOutcome

/-- Go `ScriptResult` struct (identical in all harness variants). -/
structure ScriptResult where
  Name : String
  Success : Bool
  Duration : Nat
  Error : Option GoError
  Output : String
deriving DecidableEq, Repr

/-- Outcome of `os.Stat` on a path, classified the way the harness
classifies it: success, an error for which `os.IsNotExist` returns true,
or any other error. -/
inductive StatResult : Type
  | ok
  | errNotExist
  | errOther
deriving DecidableEq, Repr

/-- Go `os.IsNotExist(err)` applied to a `StatResult` (false on a `nil`
error, true exactly on a not-exist error). -/
def statIsNotExist : StatResult → Bool
  | .errNotExist => true
  | _ => false

/-- Oracle describing the file system seen by `os.Stat`. -/
abbrev StatOracle := String → StatResult

/-! ## Path and string manipulation (Go `path/filepath`, `strings`) -/

/-- Go `strings.HasSuffix`. -/
def goHasSuffix (s suffix : String) : Bool :=
  suffix.data.isSuffixOf s.data

/-- Go `strings.TrimSuffix`: drop `suffix` from the end of `s` when
present, otherwise return `s` unchanged. -/
def goTrimSuffix (s suffix : String) : String :=
  if goHasSuffix s suffix then
    String.mk (s.data.take (s.data.length - suffix.data.length))
  else s

/-- Split a character list on `'/'` separators (used to translate the
lexical processing done by Go `filepath.Clean`). Always nonempty. -/
def splitOnSlash : List Char → List (List Char)
  | [] => [[]]
  | c :: rest =>
    match splitOnSlash rest with
    | [] => [[]]
    | p :: ps => if c = '/' then [] :: p :: ps else (c :: p) :: ps

/-- One step of `filepath.Clean`'s element processing: empty and `"."`
elements are dropped; `".."` pops the previous element when there is one
to pop (and is kept when the path is relative and nothing is poppable,
dropped at the root of an absolute path); any other element is kept. -/
def cleanStep (rooted : Bool) (stack : List (List Char)) (p : List Char) :
    List (List Char) :=
  if p = [] ∨ p = ['.'] then stack
  else if p = ['.', '.'] then
    match stack.getLast? with
    | some q => if q = ['.', '.'] then stack ++ [p] else stack.dropLast
    | none => if rooted then [] else [p]
  else stack ++ [p]

/-- Process all path elements (left to right) as `filepath.Clean` does. -/
def cleanParts (rooted : Bool) (ps : List (List Char)) : List (List Char) :=
  ps.foldl (cleanStep rooted) []

/-- Re-join path elements with single `'/'` separators. -/
def joinParts : List (List Char) → List Char
  | [] => []
  | [p] => p
  | p :: q :: ps => p ++ '/' :: joinParts (q :: ps)

/-- Whether a path is absolute (starts with `'/'`). -/
def isRooted (s : String) : Bool := decide (s.data.head? = some '/')

/-- Go `filepath.Clean` (Unix separators): lexically simplify a path by
dropping empty and `"."` elements, resolving `".."`, preserving
rootedness; the empty path cleans to `"."`. -/
def goClean (s : String) : String :=
  if s = "" then "."
  else if cleanParts (isRooted s) (splitOnSlash s.data) = [] then
    (if isRooted s then "/" else ".")
  else
    String.mk ((if isRooted s then ['/'] else [])
      ++ joinParts (cleanParts (isRooted s) (splitOnSlash s.data)))

/-- Go `filepath.Join` on two elements: empty elements are skipped and the
concatenation (with a `"/"` separator) is cleaned. -/
def goJoin (dir e : String) : String :=
  if dir = "" then (if e = "" then "" else goClean e)
  else if e = "" then goClean dir
  else goClean (dir ++ "/" ++ e)

/-- Drop trailing `'/'` characters (first phase of Go `filepath.Base`). -/
def dropTrailingSlashes (cs : List Char) : List Char :=
  ((cs.reverse).dropWhile (fun c => c = '/')).reverse

/-- The characters after the last `'/'` (second phase of `filepath.Base`). -/
def afterLastSlash (cs : List Char) : List Char :=
  ((cs.reverse).takeWhile (fun c => c ≠ '/')).reverse

/-- Go `filepath.Base`: the last element of a path; `""` gives `"."`,
an all-slash path gives `"/"`. -/
def goBase (s : String) : String :=
  if s = "" then "."
  else if dropTrailingSlashes s.data = [] then "/"
  else String.mk (afterLastSlash (dropTrailingSlashes s.data))

/-! ## Single-task executor (`runPythonScript`) -/

/-- The display name computed by every variant's `runPythonScript`:
`strings.TrimSuffix(filepath.Base(scriptPath), ".py")`. -/
def scriptDisplayName (scriptPath : String) : String :=
  goTrimSuffix (goBase scriptPath) ".py"

/-- Function `runPythonScript` of the parallel variant (`run_all.go`): run the
child via `cmd.CombinedOutput()` (buffered capture of combined
stdout+stderr), classify `err == nil` as success, store `string(output)`.
The channel send and counter increment are modelled by the scheduler. -/
def runPythonScriptBuffered (run : ExecOracle) (scriptPath : String) :
    ScriptResult :=
  let r := run scriptPath
  { Name := scriptDisplayName scriptPath
    Success := r.err.isNone
    Duration := r.duration
    Error := r.err
    Output := r.output }

/-- Function `runPythonScript` of the streamed variants: the child's stdout/stderr
are wired to `os.Stdout`/`os.Stderr` and the result's `Output` field is
the literal empty string. -/
def runPythonScriptStreamed (run : ExecOracle) (scriptPath : String) :
    ScriptResult :=
  let r := run scriptPath
  { Name := scriptDisplayName scriptPath
    Success := r.err.isNone
    Duration := r.duration
    Error := r.err
    Output := "" }

/-! ## Catalog resolution -/

/-- The resolution loop shared by the variants: keep a catalog entry
unless `os.Stat(filepath.Join(scriptDir, script))` fails with an error
satisfying `os.IsNotExist`. -/
def resolveScripts (stat : StatOracle) (scriptDir : String)
    (catalog : List String) : List String :=
  catalog.filter (fun script => !(statIsNotExist (stat (goJoin scriptDir script))))

/-- The entries for which the resolution loop prints the
`⚠ Skipping ... (file not found)` warning. -/
def resolutionWarnings (stat : StatOracle) (scriptDir : String)
    (catalog : List String) : List String :=
  catalog.filter (fun script => statIsNotExist (stat (goJoin scriptDir script)))

/-- The catalog hard-coded in the parallel variant (`run_all.go`). -/
def pythonScriptsParallel : List String :=
  ["biconomy.py", "bigone.py", "binance.py", "bitget.py", "bitmart.py",
   "bitrue.py", "btse.py", "bybit.py", "coinbase.py", "coinex.py",
   "coinw.py", "cryptocom.py", "deepcoin.py", "digifinex.py", "gateio.py",
   "gemini.py", "hashkeyglobal.py", "htx.py", "kraken.py", "kucoin.py",
   "lbank.py", "mexc.py", "okx.py", "pionex.py", "toobit.py", "whitebit.py"]

/-- The catalog hard-coded in the sequential variant (uncommented entries
only). -/
def pythonScriptsSequential : List String :=
  ["bitrue.py", "btse.py", "bybit.py", "coinex.py", "coinw.py",
   "cryptocom.py", "gateio.py", "gemini.py", "htx.py", "kucoin.py",
   "mexc.py", "whitebit.py"]

/-! ## Result aggregation and exit status -/

/-- The summary accumulated by the aggregation loop of `main`. -/
structure RunSummary where
  successful : Nat
  failed : Nat
  failedScripts : List ScriptResult
deriving DecidableEq, Repr

/-- The aggregation loop of `main` (identical in all variants): walk the
collected results, counting successes and failures and collecting the
failed results in encounter order. -/
def aggregateResults (results : List ScriptResult) : RunSummary :=
  results.foldl
    (fun acc r =>
      if r.Success then { acc with successful := acc.successful + 1 }
      else { acc with failed := acc.failed + 1,
                      failedScripts := acc.failedScripts ++ [r] })
    { successful := 0, failed := 0, failedScripts := [] }

/-- The process exit status of `main`: `os.Exit(1)` when `failed > 0`,
otherwise `main` returns normally and the process exits with status 0. -/
def mainExitStatus (results : List ScriptResult) : Nat :=
  if (aggregateResults results).failed > 0 then 1 else 0

/-! ## Sequential scheduler (the sequential variant's `main` loop) -/

/-- Console/processing events emitted by the sequential variant's
`runPythonScript`, in source order: the progress value is computed
(`progress := float64(current)/float64(total)*100`), the launch
announcement line (which displays `[current/total - progress%]`) is
printed, the child runs, and the completion line (again displaying
`[current/total - progress%]`) is printed. The progress percentage is a
function of the `(current, total)` pair carried by the events. -/
inductive SeqEvent : Type
  | computeProgress (current total : Nat)
  | startLine (name : String) (current total : Nat)
  | execChild (path : String)
  | finishLine (name : String) (current total : Nat) (success : Bool)
deriving DecidableEq, Repr

/-- The sequential variant's `runPythonScript(scriptPath, current, total)`:
returns the `ScriptResult` together with the ordered list of events it
performs. Output is streamed (`cmd.Stdout = os.Stdout`), so the result's
`Output` is `""`. -/
def runPythonScriptSeq (run : ExecOracle) (scriptPath : String)
    (current total : Nat) : ScriptResult × List SeqEvent :=
  let scriptName := scriptDisplayName scriptPath
  let r := run scriptPath
  ({ Name := scriptName
     Success := r.err.isNone
     Duration := r.duration
     Error := r.err
     Output := "" },
   [SeqEvent.computeProgress current total,
    SeqEvent.startLine scriptName current total,
    SeqEvent.execChild scriptPath,
    SeqEvent.finishLine scriptName current total r.err.isNone])

/-- The sequential variant's driver loop:
`for i, script := range validScripts { result := runPythonScript(path, i+1, len(validScripts)); ... }`,
collecting results in order and concatenating the per-task events. -/
def sequentialRun (run : ExecOracle) (scriptDir : String)
    (valid : List String) : List ScriptResult × List SeqEvent :=
  valid.enum.foldl
    (fun acc iscript =>
      (acc.1 ++ [(runPythonScriptSeq run (goJoin scriptDir iscript.2)
          (iscript.1 + 1) valid.length).1],
       acc.2 ++ (runPythonScriptSeq run (goJoin scriptDir iscript.2)
          (iscript.1 + 1) valid.length).2))
    ([], [])

/-- The block of events the sequential loop performs for the catalog entry
at zero-based index `iscript.1`. -/
def seqTaskBlock (run : ExecOracle) (scriptDir : String) (total : Nat)
    (iscript : Nat × String) : List SeqEvent :=
  (runPythonScriptSeq run (goJoin scriptDir iscript.2)
    (iscript.1 + 1) total).2

/-- The `(current, total)` progress pair displayed by an event, when it
displays one. -/
def seqEventProgress : SeqEvent → Option (Nat × Nat)
  | .computeProgress c t => some (c, t)
  | .startLine _ c t => some (c, t)
  | .execChild _ => none
  | .finishLine _ c t _ => some (c, t)

/-- Recognizer for the progress-computation event. -/
def isComputeEvent : SeqEvent → Bool
  | .computeProgress _ _ => true
  | _ => false

/-- Recognizer for the launch-announcement event. -/
def isStartEvent : SeqEvent → Bool
  | .startLine _ _ _ => true
  | _ => false

/-! ## Parallel scheduler (`run_all.go`'s `main`), as a state machine

The concurrent phase of `run_all.go` is modelled as a transition system.
One `taskComplete` step is the visible effect of one goroutine finishing:
it produces its `ScriptResult`, increments the shared atomic counter, and
sends the result on the buffered `results` channel (a send is only
possible while the buffer holds fewer than `cap` elements, `cap` being
the channel capacity `len(pythonScripts)`); `wg.Done` is the removal of
its index from `remaining`. `closeChannel` is `wg.Wait()` returning
followed by `close(results)`, possible only once every goroutine is done.
`aggregateRead` is the `for result := range results` loop draining the
closed channel. `reporterTick` is one wakeup of the progress goroutine's
ticker loop. -/
structure ParState where
  remaining : List Nat
  buffer : List ScriptResult
  completed : Nat
  closed : Bool
  aggregated : Option (List ScriptResult)
  reporterDone : Bool
  reporterLog : List (Nat × Nat)
deriving DecidableEq, Repr

/-- The state right after `main` has spawned one goroutine per resolved
task: none finished, empty channel, counter zero. -/
def parInit (n : Nat) : ParState :=
  { remaining := List.range n, buffer := [], completed := 0, closed := false,
    aggregated := none, reporterDone := false, reporterLog := [] }

/-- The outcome produced by the goroutine for task index `i`. -/
def parOutcome (tasks : List String) (run : ExecOracle) (i : Nat) :
    ScriptResult :=
  runPythonScriptBuffered run (tasks.getD i "")

/-- One wakeup of the progress goroutine: load the atomic counter; if it
is still below the total, print a `(completed, total)` snapshot and keep
looping, otherwise break out of the loop. -/
def reporterTickTarget (total : Nat) (s : ParState) : ParState :=
  if s.completed < total then
    { s with reporterLog := s.reporterLog ++ [(s.completed, total)] }
  else { s with reporterDone := true }

/-- Transitions of the parallel phase. -/
inductive ParStep (tasks : List String) (run : ExecOracle) (cap : Nat) :
    ParState → ParState → Prop
  | taskComplete (s : ParState) (i : Nat) (hmem : i ∈ s.remaining)
      (hcap : s.buffer.length < cap) :
      ParStep tasks run cap s
        { s with remaining := s.remaining.erase i,
                 completed := s.completed + 1,
                 buffer := s.buffer ++ [parOutcome tasks run i] }
  | closeChannel (s : ParState) (hdone : s.remaining = [])
      (hopen : s.closed = false) :
      ParStep tasks run cap s { s with closed := true }
  | aggregateRead (s : ParState) (hclosed : s.closed = true)
      (hnone : s.aggregated = none) :
      ParStep tasks run cap s { s with aggregated := some s.buffer }
  | reporterTick (s : ParState) (hlive : s.reporterDone = false) :
      ParStep tasks run cap s (reporterTickTarget tasks.length s)

/-- States reachable from the spawn point of the parallel phase. -/
inductive ParReachable (tasks : List String) (run : ExecOracle) (cap : Nat) :
    ParState → Prop
  | init : ParReachable tasks run cap (parInit tasks.length)
  | step {s s' : ParState} : ParReachable tasks run cap s →
      ParStep tasks run cap s s' → ParReachable tasks run cap s'

/-! ## Concrete oracles and states used for witnesses -/

/-- An execution world where every script exits 0 quietly. -/
def runOkW : ExecOracle := fun _ => { output := "", err := none, duration := 0 }

/-- An execution world where every launch fails with a nonzero exit. -/
def runFailW : ExecOracle :=
  fun _ => { output := "boom", err := some (GoError.exitError 2), duration := 3 }

/-- The outcome of `a.py` in the all-succeed world. -/
def resOkW : ScriptResult := runPythonScriptBuffered runOkW "a.py"

/-- Parallel-phase state after the single task of catalog `["a.py"]`
completed. -/
def sW1 : ParState :=
  { remaining := [], buffer := [resOkW], completed := 1, closed := false,
    aggregated := none, reporterDone := false, reporterLog := [] }

/-- State after the channel was closed. -/
def sW2 : ParState := { sW1 with closed := true }

/-- State after aggregation drained the channel. -/
def sW3 : ParState := { sW2 with aggregated := some [resOkW] }

/-- A file system where exactly `d/b.py` is missing. -/
def statW : StatOracle :=
  fun p => if p = "d/b.py" then StatResult.errNotExist else StatResult.ok

/-- The existence predicate matching `statW`. -/
def fsExistsW : String → Bool := fun p => !(p = "d/b.py" : Bool)

/-- A file system where stat on `d/a.py` fails with a non-not-exist error
(e.g. permission denied) and everything else is fine. -/
def statOtherW : StatOracle :=
  fun p => if p = "d/a.py" then StatResult.errOther else StatResult.ok

/-! ## Helper lemmas: path manipulation -/

theorem splitOnSlash_ne_nil (cs : List Char) : splitOnSlash cs ≠ [] := by
  cases cs with
  | nil => simp [splitOnSlash]
  | cons c rest =>
    simp only [splitOnSlash]
    rcases h : splitOnSlash rest with _ | ⟨p, ps⟩
    · simp
    · by_cases hc : c = '/' <;> simp [hc]

theorem splitOnSlash_no_slash (cs : List Char) (h : '/' ∉ cs) :
    splitOnSlash cs = [cs] := by
  induction cs with
  | nil => rfl
  | cons c rest ih =>
    have hc : c ≠ '/' := fun e => h (e ▸ List.mem_cons_self c rest)
    have hr : '/' ∉ rest := fun m => h (List.mem_cons_of_mem _ m)
    simp only [splitOnSlash, ih hr]
    simp [hc]

theorem splitOnSlash_append (xs e : List Char) (he : '/' ∉ e) :
    splitOnSlash (xs ++ '/' :: e) = splitOnSlash xs ++ [e] := by
  induction xs with
  | nil => simp [splitOnSlash, splitOnSlash_no_slash e he]
  | cons c xs ih =>
    simp only [List.cons_append, splitOnSlash, List.append_eq]
    rw [ih]
    rcases h : splitOnSlash xs with _ | ⟨p, ps⟩
    · exact absurd h (splitOnSlash_ne_nil xs)
    · by_cases hc : c = '/' <;> simp [hc]

theorem cleanParts_append_simple (rooted : Bool) (ps : List (List Char))
    (p : List Char) (h0 : p ≠ []) (h1 : p ≠ ['.']) (h2 : p ≠ ['.', '.']) :
    cleanParts rooted (ps ++ [p]) = cleanParts rooted ps ++ [p] := by
  unfold cleanParts
  rw [List.foldl_append]
  simp [cleanStep, h0, h1, h2]

theorem joinParts_append_last (ps : List (List Char)) (p : List Char) :
    joinParts (ps ++ [p])
      = if ps = [] then p else joinParts ps ++ '/' :: p := by
  induction ps with
  | nil => simp [joinParts]
  | cons q qs ih =>
    cases qs with
    | nil => simp [joinParts]
    | cons r rs =>
      have ih2 : joinParts (r :: (rs ++ [p])) = joinParts (r :: rs) ++ '/' :: p := by
        have h2 := ih
        rw [if_neg (by simp)] at h2
        simpa using h2
      simp only [List.cons_append, joinParts, ih2]
      rw [if_neg (by simp)]
      simp [joinParts, List.append_assoc]
      exact ih2

theorem takeWhile_all_ne_slash (l : List Char) (h : '/' ∉ l) :
    l.takeWhile (fun c => c ≠ '/') = l := by
  induction l with
  | nil => rfl
  | cons a l ih =>
    have ha : a ≠ '/' := fun e => h (e ▸ List.mem_cons_self a l)
    have hl : '/' ∉ l := fun m => h (List.mem_cons_of_mem _ m)
    rw [List.takeWhile_cons, if_pos (by simpa using ha), ih hl]

theorem takeWhile_append_slash (l1 l2 : List Char) (h : '/' ∉ l1) :
    (l1 ++ '/' :: l2).takeWhile (fun c => c ≠ '/') = l1 := by
  induction l1 with
  | nil => rw [List.nil_append, List.takeWhile_cons, if_neg (by simp)]
  | cons a l ih =>
    have ha : a ≠ '/' := fun e => h (e ▸ List.mem_cons_self a l)
    have hl : '/' ∉ l := fun m => h (List.mem_cons_of_mem _ m)
    rw [List.cons_append, List.takeWhile_cons, if_pos (by simpa using ha), ih hl]

theorem afterLastSlash_no_slash (e : List Char) (h : '/' ∉ e) :
    afterLastSlash e = e := by
  unfold afterLastSlash
  rw [takeWhile_all_ne_slash _ (by simpa using h), List.reverse_reverse]

theorem afterLastSlash_append (front e : List Char) (h : '/' ∉ e) :
    afterLastSlash (front ++ '/' :: e) = e := by
  unfold afterLastSlash
  rw [List.reverse_append, List.reverse_cons, List.append_assoc,
    List.singleton_append, takeWhile_append_slash _ _ (by simpa using h),
    List.reverse_reverse]

theorem dropTrailingSlashes_ends_clean (front e : List Char) (hne : e ≠ [])
    (h : '/' ∉ e) : dropTrailingSlashes (front ++ e) = front ++ e := by
  unfold dropTrailingSlashes
  rw [List.reverse_append]
  rcases hrev : e.reverse with _ | ⟨a, t⟩
  · exact absurd (by simpa using hrev) hne
  · have ha : a ≠ '/' := by
      intro hc
      have hm : a ∈ e.reverse := by rw [hrev]; exact List.mem_cons_self a t
      rw [List.mem_reverse] at hm
      exact h (hc ▸ hm)
    rw [List.cons_append, List.dropWhile_cons, if_neg (by simpa using ha),
      ← List.cons_append, ← hrev, ← List.reverse_append, List.reverse_reverse]

theorem goBase_no_slash (e : String) (hne : e.data ≠ []) (h : '/' ∉ e.data) :
    goBase e = e := by
  have hsne : e ≠ "" := by
    intro hs
    have h2 : e.data = [] := congrArg String.data hs
    exact hne h2
  unfold goBase
  rw [if_neg hsne]
  have hdrop : dropTrailingSlashes e.data = e.data := by
    have h2 := dropTrailingSlashes_ends_clean [] e.data hne h
    simpa using h2
  rw [hdrop, if_neg hne, afterLastSlash_no_slash e.data h]

theorem goBase_append_last (front : List Char) (e : String) (hne : e.data ≠ [])
    (h : '/' ∉ e.data) : goBase (String.mk (front ++ '/' :: e.data)) = e := by
  have hdata : (String.mk (front ++ '/' :: e.data)).data = front ++ '/' :: e.data := rfl
  have hsne : String.mk (front ++ '/' :: e.data) ≠ "" := by
    intro hs
    have h2 : front ++ '/' :: e.data = [] := congrArg String.data hs
    simp at h2
  unfold goBase
  rw [if_neg hsne, hdata]
  have hdrop : dropTrailingSlashes (front ++ '/' :: e.data)
      = front ++ '/' :: e.data := by
    have h2 := dropTrailingSlashes_ends_clean (front ++ ['/']) e.data hne h
    simpa using h2
  rw [hdrop, if_neg (by simp), afterLastSlash_append front e.data h]

theorem goClean_simple (e : String) (hne : e.data ≠ []) (h : '/' ∉ e.data)
    (hd : e.data ≠ ['.']) (hdd : e.data ≠ ['.', '.']) : goClean e = e := by
  have hsne : e ≠ "" := by
    intro hs
    exact hne (congrArg String.data hs)
  have hroot : isRooted e = false := by
    unfold isRooted
    rcases hh : e.data with _ | ⟨c, t⟩
    · exact absurd hh hne
    · have hc : c ≠ '/' := by
        intro hcc
        exact h (by rw [hh]; exact hcc ▸ List.mem_cons_self c t)
      simp [hc]
  have hcp : cleanParts false [e.data] = [e.data] := by
    unfold cleanParts
    simp [cleanStep, hne, hd, hdd]
  unfold goClean
  rw [if_neg hsne, hroot, splitOnSlash_no_slash e.data h, hcp,
    if_neg (by simp)]
  simp [joinParts]

theorem goBase_goJoin (dir entry : String) (hne : entry ≠ "")
    (hslash : '/' ∉ entry.data) (hdot : entry ≠ ".") (hdd : entry ≠ "..") :
    goBase (goJoin dir entry) = entry := by
  have hdne : entry.data ≠ [] := by
    intro h2
    exact hne (String.ext (h2.trans (by decide)))
  have hpd : entry.data ≠ ['.'] := by
    intro h2
    exact hdot (String.ext (h2.trans (by decide)))
  have hpdd : entry.data ≠ ['.', '.'] := by
    intro h2
    exact hdd (String.ext (h2.trans (by decide)))
  by_cases hdir : dir = ""
  · rw [hdir]
    unfold goJoin
    rw [if_pos rfl, if_neg hne, goClean_simple entry hdne hslash hpd hpdd]
    exact goBase_no_slash entry hdne hslash
  · unfold goJoin
    rw [if_neg hdir, if_neg hne]
    have hsdata : (dir ++ "/" ++ entry).data = dir.data ++ '/' :: entry.data := by
      rw [String.data_append, String.data_append]
      show (dir.data ++ ['/']) ++ entry.data = _
      simp
    have hsne : dir ++ "/" ++ entry ≠ "" := by
      intro h2
      have h3 : dir.data ++ '/' :: entry.data = [] := by
        rw [← hsdata]
        exact congrArg String.data h2
      simp at h3
    unfold goClean
    rw [if_neg hsne, hsdata, splitOnSlash_append dir.data entry.data hslash,
      cleanParts_append_simple _ _ _ hdne hpd hpdd, if_neg (by simp),
      joinParts_append_last]
    by_cases hst : cleanParts (isRooted (dir ++ "/" ++ entry))
        (splitOnSlash dir.data) = []
    · rw [if_pos hst]
      by_cases hr : isRooted (dir ++ "/" ++ entry) = true
      · rw [if_pos hr]
        exact goBase_append_last [] entry hdne hslash
      · rw [if_neg hr]
        exact goBase_no_slash entry hdne hslash
    · rw [if_neg hst]
      have hgoal := goBase_append_last
        ((if isRooted (dir ++ "/" ++ entry) then ['/'] else [])
          ++ joinParts (cleanParts (isRooted (dir ++ "/" ++ entry))
                (splitOnSlash dir.data)))
        entry hdne hslash
      rw [List.append_assoc] at hgoal
      exact hgoal

/-! ## Helper lemmas: the display name -/

theorem scriptDisplayName_goJoin (dir entry : String) (hne : entry ≠ "")
    (hslash : '/' ∉ entry.data) (hdot : entry ≠ ".") (hdd : entry ≠ "..") :
    scriptDisplayName (goJoin dir entry) = goTrimSuffix entry ".py" := by
  unfold scriptDisplayName
  rw [goBase_goJoin dir entry hne hslash hdot hdd]

theorem goTrimSuffix_of_no_suffix (s suffix : String)
    (h : goHasSuffix s suffix = false) : goTrimSuffix s suffix = s := by
  unfold goTrimSuffix
  rw [h]
  simp

/-! ## Helper lemmas: aggregation and exit status -/

theorem aggregateResults_foldl (rs : List ScriptResult) (acc : RunSummary) :
    (rs.foldl
      (fun acc r =>
        if r.Success then { acc with successful := acc.successful + 1 }
        else { acc with failed := acc.failed + 1,
                        failedScripts := acc.failedScripts ++ [r] }) acc).failed
      = acc.failed + rs.countP (fun r => !r.Success) := by
  induction rs generalizing acc with
  | nil => simp
  | cons r rs ih =>
    rw [List.foldl_cons, ih, List.countP_cons]
    by_cases h : r.Success
    · simp [h]
    · simp [h]
      omega

theorem aggregateResults_failed (rs : List ScriptResult) :
    (aggregateResults rs).failed = rs.countP (fun r => !r.Success) := by
  unfold aggregateResults
  rw [aggregateResults_foldl]
  simp

theorem mainExitStatus_zero_iff (rs : List ScriptResult) :
    mainExitStatus rs = 0 ↔ ∀ r ∈ rs, r.Success = true := by
  unfold mainExitStatus
  rw [aggregateResults_failed]
  constructor
  · intro h r hr
    by_cases hs : 0 < rs.countP (fun r => !r.Success)
    · rw [if_pos hs] at h
      exact absurd h one_ne_zero
    · have h0 : rs.countP (fun r => !r.Success) = 0 := by omega
      rw [List.countP_eq_zero] at h0
      have h1 := h0 r hr
      simpa using h1
  · intro h
    have h0 : rs.countP (fun r => !r.Success) = 0 := by
      rw [List.countP_eq_zero]
      intro a ha
      simp [h a ha]
    rw [h0]
    simp

theorem mainExitStatus_one_iff (rs : List ScriptResult) :
    mainExitStatus rs = 1 ↔ ∃ r ∈ rs, r.Success = false := by
  unfold mainExitStatus
  rw [aggregateResults_failed]
  constructor
  · intro h1
    by_cases h : 0 < rs.countP (fun r => !r.Success)
    · rw [List.countP_pos_iff] at h
      obtain ⟨r, hr, hp⟩ := h
      exact ⟨r, hr, by simpa using hp⟩
    · rw [if_neg h] at h1
      exact absurd h1 zero_ne_one
  · intro hex
    obtain ⟨r, hr, hs⟩ := hex
    have h : 0 < rs.countP (fun r => !r.Success) :=
      List.countP_pos_iff.mpr ⟨r, hr, by simp [hs]⟩
    rw [if_pos h]

/-! ## Helper lemmas: the sequential scheduler -/

theorem sequentialRun_foldl (run : ExecOracle) (scriptDir : String)
    (total : Nat) (l : List (Nat × String))
    (acc : List ScriptResult × List SeqEvent) :
    l.foldl
      (fun acc iscript =>
        (acc.1 ++ [(runPythonScriptSeq run (goJoin scriptDir iscript.2)
            (iscript.1 + 1) total).1],
         acc.2 ++ (runPythonScriptSeq run (goJoin scriptDir iscript.2)
            (iscript.1 + 1) total).2)) acc
      = (acc.1 ++ l.map (fun iscript =>
            (runPythonScriptSeq run (goJoin scriptDir iscript.2)
              (iscript.1 + 1) total).1),
         acc.2 ++ (l.map (fun iscript =>
            (runPythonScriptSeq run (goJoin scriptDir iscript.2)
              (iscript.1 + 1) total).2)).flatten) := by
  induction l generalizing acc with
  | nil => simp
  | cons a l ih => simp [ih]

theorem enum_map_snd_comp {α β : Type} (l : List α) (h : α → β) :
    l.enum.map (fun p => h p.2) = l.map h := by
  calc l.enum.map (fun p => h p.2) = (l.enum.map Prod.snd).map h := by
        rw [List.map_map]
        rfl
    _ = l.map h := by rw [List.enum_map_snd]

theorem sequentialRun_eq (run : ExecOracle) (scriptDir : String)
    (valid : List String) :
    sequentialRun run scriptDir valid
      = (valid.map (fun s => runPythonScriptStreamed run (goJoin scriptDir s)),
         (valid.enum.map (seqTaskBlock run scriptDir valid.length)).flatten) := by
  unfold sequentialRun
  rw [sequentialRun_foldl]
  simp only [List.nil_append]
  refine Prod.ext ?_ ?_
  · exact enum_map_snd_comp valid
      (fun s => runPythonScriptStreamed run (goJoin scriptDir s))
  · rfl

theorem seqTaskBlock_eq (run : ExecOracle) (scriptDir : String) (total i : Nat)
    (script : String) :
    seqTaskBlock run scriptDir total (i, script)
      = [SeqEvent.computeProgress (i + 1) total,
         SeqEvent.startLine (scriptDisplayName (goJoin scriptDir script))
           (i + 1) total,
         SeqEvent.execChild (goJoin scriptDir script),
         SeqEvent.finishLine (scriptDisplayName (goJoin scriptDir script))
           (i + 1) total ((run (goJoin scriptDir script)).err.isNone)] := rfl

theorem seq_trace_progress (run : ExecOracle) (scriptDir : String)
    (valid : List String) :
    ∀ ev ∈ (sequentialRun run scriptDir valid).2, ∀ c t,
      seqEventProgress ev = some (c, t) →
        t = valid.length ∧ 1 ≤ c ∧ c ≤ valid.length := by
  intro ev hev c t hp
  rw [sequentialRun_eq] at hev
  simp only [List.mem_flatten] at hev
  obtain ⟨blk, hblk, hevblk⟩ := hev
  rw [List.mem_map] at hblk
  obtain ⟨⟨i, script⟩, hmem, hblkeq⟩ := hblk
  have hi : i < valid.length := List.fst_lt_of_mem_enum hmem
  rw [← hblkeq, seqTaskBlock_eq] at hevblk
  simp only [List.mem_cons, List.not_mem_nil, or_false] at hevblk
  rcases hevblk with h | h | h | h
  · subst h
    simp only [seqEventProgress, Option.some.injEq, Prod.mk.injEq] at hp
    obtain ⟨hc, ht⟩ := hp
    omega
  · subst h
    simp only [seqEventProgress, Option.some.injEq, Prod.mk.injEq] at hp
    obtain ⟨hc, ht⟩ := hp
    omega
  · subst h
    exact absurd hp (by simp [seqEventProgress])
  · subst h
    simp only [seqEventProgress, Option.some.injEq, Prod.mk.injEq] at hp
    obtain ⟨hc, ht⟩ := hp
    omega

/-! ## Helper lemmas: the parallel machine -/

theorem reporterTickTarget_remaining (total : Nat) (s : ParState) :
    (reporterTickTarget total s).remaining = s.remaining := by
  unfold reporterTickTarget
  split <;> rfl

theorem reporterTickTarget_buffer (total : Nat) (s : ParState) :
    (reporterTickTarget total s).buffer = s.buffer := by
  unfold reporterTickTarget
  split <;> rfl

theorem reporterTickTarget_completed (total : Nat) (s : ParState) :
    (reporterTickTarget total s).completed = s.completed := by
  unfold reporterTickTarget
  split <;> rfl

theorem reporterTickTarget_closed (total : Nat) (s : ParState) :
    (reporterTickTarget total s).closed = s.closed := by
  unfold reporterTickTarget
  split <;> rfl

theorem reporterTickTarget_aggregated (total : Nat) (s : ParState) :
    (reporterTickTarget total s).aggregated = s.aggregated := by
  unfold reporterTickTarget
  split <;> rfl

theorem reporterTickTarget_of_lt (total : Nat) (s : ParState)
    (h : s.completed < total) :
    (reporterTickTarget total s).reporterLog
        = s.reporterLog ++ [(s.completed, total)]
      ∧ (reporterTickTarget total s).reporterDone = s.reporterDone := by
  unfold reporterTickTarget
  rw [if_pos h]
  exact ⟨rfl, rfl⟩

theorem reporterTickTarget_of_ge (total : Nat) (s : ParState)
    (h : ¬ s.completed < total) :
    (reporterTickTarget total s).reporterLog = s.reporterLog
      ∧ (reporterTickTarget total s).reporterDone = true := by
  unfold reporterTickTarget
  rw [if_neg h]
  exact ⟨rfl, rfl⟩

theorem range_map_getD {α β : Type} (l : List α) (d : α) (f : α → β) :
    (List.range l.length).map (fun i => f (l.getD i d)) = l.map f := by
  induction l with
  | nil => rfl
  | cons a l ih =>
    rw [List.length_cons, List.range_succ_eq_map, List.map_cons, List.map_map]
    simp only [List.getD_cons_zero, Function.comp_def, Nat.succ_eq_add_one,
      List.getD_cons_succ]
    rw [ih, List.map_cons]

/-- The main inductive invariant of the parallel phase: the channel holds
exactly the outcomes of the completed goroutines (`done`), the counter
counts them, the channel is closed only after every goroutine is done,
the aggregation result is a snapshot of the closed channel, and every
reporter snapshot was taken strictly before completion. -/
theorem par_invariant {tasks : List String} {run : ExecOracle} {cap : Nat}
    {s : ParState} (h : ParReachable tasks run cap s) :
    (∃ done : List Nat,
        s.buffer = done.map (parOutcome tasks run) ∧
        s.completed = done.length ∧
        (done ++ s.remaining).Perm (List.range tasks.length)) ∧
    (s.closed = true → s.remaining = []) ∧
    (∀ out, s.aggregated = some out → s.closed = true ∧ out = s.buffer) ∧
    (∀ p ∈ s.reporterLog, p.1 < tasks.length ∧ p.2 = tasks.length) := by
  induction h with
  | init =>
    refine ⟨⟨[], rfl, rfl, by simp [parInit]⟩, by simp [parInit],
      by simp [parInit], by simp [parInit]⟩
  | step hr hstep ih =>
    rename_i s s'
    obtain ⟨⟨done, hbuf, hcomp, hperm⟩, hcl, hagg, hlog⟩ := ih
    cases hstep with
    | taskComplete i hmem hcap =>
      refine ⟨⟨done ++ [i], ?_, ?_, ?_⟩, ?_, ?_, ?_⟩
      · simp [hbuf]
      · simp [hcomp]
      · show ((done ++ [i]) ++ s.remaining.erase i).Perm (List.range tasks.length)
        have hpc : (i :: s.remaining.erase i).Perm s.remaining :=
          (List.perm_cons_erase hmem).symm
        have h1 : ((done ++ [i]) ++ s.remaining.erase i).Perm
            (done ++ s.remaining) := by
          rw [List.append_assoc, List.singleton_append]
          exact hpc.append_left done
        exact h1.trans hperm
      · intro hcl2
        have hrem := hcl hcl2
        rw [hrem] at hmem
        exact absurd hmem (List.not_mem_nil i)
      · intro out hagg2
        obtain ⟨hc2, _⟩ := hagg out hagg2
        have hrem := hcl hc2
        rw [hrem] at hmem
        exact absurd hmem (List.not_mem_nil i)
      · exact hlog
    | closeChannel hdone hopen =>
      refine ⟨⟨done, hbuf, hcomp, hperm⟩, fun _ => hdone, ?_, hlog⟩
      intro out hagg2
      obtain ⟨hc2, _⟩ := hagg out hagg2
      rw [hopen] at hc2
      exact absurd hc2 (by simp)
    | aggregateRead hclosed hnone =>
      refine ⟨⟨done, hbuf, hcomp, hperm⟩, fun _ => hcl hclosed, ?_, hlog⟩
      intro out hagg2
      simp only [Option.some.injEq] at hagg2
      exact ⟨hclosed, hagg2.symm⟩
    | reporterTick hlive =>
      refine ⟨⟨done, ?_, ?_, ?_⟩, ?_, ?_, ?_⟩
      · rw [reporterTickTarget_buffer]
        exact hbuf
      · rw [reporterTickTarget_completed]
        exact hcomp
      · rw [reporterTickTarget_remaining]
        exact hperm
      · rw [reporterTickTarget_closed, reporterTickTarget_remaining]
        exact hcl
      · intro out hagg2
        rw [reporterTickTarget_aggregated] at hagg2
        rw [reporterTickTarget_closed, reporterTickTarget_buffer]
        exact hagg out hagg2
      · by_cases hc : s.completed < tasks.length
        · rw [(reporterTickTarget_of_lt tasks.length s hc).1]
          intro p hp
          rcases List.mem_append.mp hp with hold | hnew
          · exact hlog p hold
          · have hpe : p = (s.completed, tasks.length) := by simpa using hnew
            rw [hpe]
            exact ⟨hc, rfl⟩
        · rw [(reporterTickTarget_of_ge tasks.length s hc).1]
          exact hlog

/-- The aggregated end state of a one-task parallel run is reachable. -/
theorem sW3_reachable : ParReachable ["a.py"] runOkW 26 sW3 :=
  ParReachable.step
    (ParReachable.step
      (ParReachable.step ParReachable.init
        (ParStep.taskComplete (parInit 1) 0 (by decide) (by decide)))
      (ParStep.closeChannel _ (by decide) (by decide)))
    (ParStep.aggregateRead _ (by decide) (by decide))

/-! ## The claims -/

/-- C1: for every run, the process exit status is 0 iff every resolved
task's outcome has `Success` true (including the vacuous case of zero
resolved tasks), and 1 iff at least one outcome has `Success` false,
regardless of how many failed. -/
theorem mainExitStatus_law (results : List ScriptResult) :
    (mainExitStatus results = 0 ↔ ∀ r ∈ results, r.Success = true) ∧
    (mainExitStatus results = 1 ↔ ∃ r ∈ results, r.Success = false) ∧
    mainExitStatus [] = 0 :=
  ⟨mainExitStatus_zero_iff results, mainExitStatus_one_iff results, rfl⟩

/-- C3: for every TaskOutcome produced by the single-task executor, under
every scheduling policy and output mode, `Success` is true exactly when
the `Error` field is absent. -/
theorem success_iff_error_absent (run : ExecOracle) (path : String)
    (cur total : Nat) :
    ((runPythonScriptBuffered run path).Success
        = (runPythonScriptBuffered run path).Error.isNone) ∧
    ((runPythonScriptStreamed run path).Success
        = (runPythonScriptStreamed run path).Error.isNone) ∧
    ((runPythonScriptSeq run path cur total).1.Success
        = (runPythonScriptSeq run path cur total).1.Error.isNone) :=
  ⟨rfl, rfl, rfl⟩

/-- C6: in Buffered mode `Output` holds the captured combined
stdout+stderr bytes as text; in the Streamed variants (parallel-streamed
and sequential) `Output` is always the empty string. -/
theorem output_mode_contract (run : ExecOracle) (path : String)
    (cur total : Nat) :
    ((runPythonScriptBuffered run path).Output = (run path).output) ∧
    ((runPythonScriptStreamed run path).Output = "") ∧
    ((runPythonScriptSeq run path cur total).1.Output = "") :=
  ⟨rfl, rfl, rfl⟩

/-- C5: every abnormal child termination and every launch failure is
recorded as a TaskOutcome with `Success = false` carrying the underlying
failure in `Error` (the `GoError` type covers both nonzero exits and
launch failures); the executor returns outcome data rather than raising,
so under any execution world — failures included — the sequential run
still produces one outcome per task, siblings untouched. -/
theorem failure_recorded_as_data (run : ExecOracle) (path : String)
    (e : GoError) (hfail : (run path).err = some e) :
    (runPythonScriptBuffered run path).Success = false ∧
    (runPythonScriptBuffered run path).Error = some e ∧
    (runPythonScriptStreamed run path).Success = false ∧
    (runPythonScriptStreamed run path).Error = some e ∧
    (∀ scriptDir valid, (sequentialRun run scriptDir valid).1
        = valid.map (fun s => runPythonScriptStreamed run (goJoin scriptDir s))) ∧
    (∀ scriptDir valid,
      ((sequentialRun run scriptDir valid).1).length = valid.length) := by
  refine ⟨?_, ?_, ?_, ?_, ?_, ?_⟩
  · simp [runPythonScriptBuffered, hfail]
  · simp [runPythonScriptBuffered, hfail]
  · simp [runPythonScriptStreamed, hfail]
  · simp [runPythonScriptStreamed, hfail]
  · intro d v
    rw [sequentialRun_eq]
  · intro d v
    rw [sequentialRun_eq]
    simp

/-- C5 witness: a concrete world where every launch exits with status 2. -/
theorem failure_recorded_as_data_witness :
    (runPythonScriptBuffered runFailW "a.py").Success = false ∧
    (runPythonScriptBuffered runFailW "a.py").Error
      = some (GoError.exitError 2) ∧
    (runPythonScriptStreamed runFailW "a.py").Success = false ∧
    (runPythonScriptStreamed runFailW "a.py").Error
      = some (GoError.exitError 2) := by
  have h := failure_recorded_as_data runFailW "a.py" (GoError.exitError 2) rfl
  exact ⟨h.1, h.2.1, h.2.2.1, h.2.2.2.1⟩

/-- C8: the display name equals the catalog entry with a literal trailing
".py" stripped from the base of the resolved path `join(dir, entry)`; an
entry with any other or no extension keeps it, since only the ".py"
suffix is ever removed. -/
theorem display_name_contract (run : ExecOracle) (dir entry : String)
    (hne : entry ≠ "") (hslash : '/' ∉ entry.data)
    (hdot : entry ≠ ".") (hdd : entry ≠ "..") :
    (runPythonScriptBuffered run (goJoin dir entry)).Name
        = goTrimSuffix entry ".py" ∧
    (runPythonScriptStreamed run (goJoin dir entry)).Name
        = goTrimSuffix entry ".py" ∧
    (goHasSuffix entry ".py" = false → goTrimSuffix entry ".py" = entry) := by
  have h := scriptDisplayName_goJoin dir entry hne hslash hdot hdd
  exact ⟨h, h, goTrimSuffix_of_no_suffix entry ".py"⟩

/-- C8 witness: a `.py` entry is stripped, a `.txt` entry is kept. -/
theorem display_name_contract_witness :
    goTrimSuffix "binance.py" ".py" = "binance" ∧
    (runPythonScriptBuffered runOkW (goJoin "scripts" "binance.py")).Name
      = goTrimSuffix "binance.py" ".py" ∧
    (goHasSuffix "notes.txt" ".py" = false →
      goTrimSuffix "notes.txt" ".py" = "notes.txt") := by
  have h := display_name_contract runOkW "scripts" "binance.py"
    (by decide) (by decide) (by decide) (by decide)
  have h2 := display_name_contract runOkW "scripts" "notes.txt"
    (by decide) (by decide) (by decide) (by decide)
  exact ⟨by decide, h.1, h2.2.2⟩

/-- C4: when `os.IsNotExist` on the stat result coincides with
non-existence on disk, the resolved list is exactly the catalog entries
whose joined path exists, kept in original catalog order (a sublist of
the catalog); the warned-about entries are exactly the missing ones;
every progress pair of the sequential run over the resolved tasks has the
resolved count as denominator (missing entries are excluded from it); and
a run whose resolved tasks all succeed exits 0 regardless of how many
entries were dropped. -/
theorem resolution_contract (stat : StatOracle) (fsExists : String → Bool)
    (scriptDir : String) (catalog : List String)
    (hmodel : ∀ p, statIsNotExist (stat p) = !fsExists p) :
    resolveScripts stat scriptDir catalog
        = catalog.filter (fun e => fsExists (goJoin scriptDir e)) ∧
    (resolveScripts stat scriptDir catalog).Sublist catalog ∧
    resolutionWarnings stat scriptDir catalog
        = catalog.filter (fun e => !fsExists (goJoin scriptDir e)) ∧
    (∀ run : ExecOracle, ∀ ev ∈ (sequentialRun run scriptDir
        (resolveScripts stat scriptDir catalog)).2, ∀ c t,
      seqEventProgress ev = some (c, t) →
        t = (resolveScripts stat scriptDir catalog).length) ∧
    (∀ run : ExecOracle,
      (∀ r ∈ (sequentialRun run scriptDir
          (resolveScripts stat scriptDir catalog)).1, r.Success = true) →
      mainExitStatus ((sequentialRun run scriptDir
          (resolveScripts stat scriptDir catalog)).1) = 0) := by
  refine ⟨?_, List.filter_sublist _, ?_, ?_, ?_⟩
  · unfold resolveScripts
    congr 1
    funext e
    rw [hmodel]
    simp
  · unfold resolutionWarnings
    congr 1
    funext e
    rw [hmodel]
  · intro run ev hev c t hp
    exact (seq_trace_progress run scriptDir _ ev hev c t hp).1
  · intro run hall
    exact (mainExitStatus_zero_iff _).mpr hall

/-- C4 witness: a catalog of two entries over a file system where only
the second one is missing. -/
theorem resolution_contract_witness :
    (resolveScripts statW "d" ["a.py", "b.py"]
        = List.filter (fun e => fsExistsW (goJoin "d" e)) ["a.py", "b.py"]) ∧
    resolveScripts statW "d" ["a.py", "b.py"] = ["a.py"] ∧
    resolutionWarnings statW "d" ["a.py", "b.py"] = ["b.py"] ∧
    (resolveScripts statW "d" ["a.py", "b.py"]).Sublist ["a.py", "b.py"] := by
  have hmodelW : ∀ p, statIsNotExist (statW p) = !fsExistsW p := by
    intro p
    by_cases h : p = "d/b.py" <;> simp [statW, fsExistsW, statIsNotExist, h]
  have h := resolution_contract statW fsExistsW "d" ["a.py", "b.py"] hmodelW
  exact ⟨h.1, by decide, by decide, h.2.1⟩

/-- C10: an entry whose stat fails with an error that is not a not-exist
error is kept in the resolved set and gets no skip warning; the scheduler
then attempts a launch for it, and if that launch fails the failure
surfaces as a failed TaskOutcome rather than a resolution warning. -/
theorem other_stat_error_keeps_entry (stat : StatOracle)
    (scriptDir entry : String) (catalog : List String) (hin : entry ∈ catalog)
    (hother : stat (goJoin scriptDir entry) = StatResult.errOther) :
    entry ∈ resolveScripts stat scriptDir catalog ∧
    entry ∉ resolutionWarnings stat scriptDir catalog ∧
    (∀ run : ExecOracle,
      runPythonScriptStreamed run (goJoin scriptDir entry)
        ∈ (sequentialRun run scriptDir
            (resolveScripts stat scriptDir catalog)).1) ∧
    (∀ run : ExecOracle, ∀ e, (run (goJoin scriptDir entry)).err = some e →
      (runPythonScriptStreamed run (goJoin scriptDir entry)).Success = false ∧
      (runPythonScriptStreamed run (goJoin scriptDir entry)).Error = some e) := by
  have hmem : entry ∈ resolveScripts stat scriptDir catalog := by
    unfold resolveScripts
    rw [List.mem_filter]
    exact ⟨hin, by simp [hother, statIsNotExist]⟩
  refine ⟨hmem, ?_, ?_, ?_⟩
  · unfold resolutionWarnings
    rw [List.mem_filter]
    rintro ⟨_, hbad⟩
    rw [hother] at hbad
    simp [statIsNotExist] at hbad
  · intro run
    rw [sequentialRun_eq]
    exact List.mem_map_of_mem _ hmem
  · intro run e he
    exact ⟨by simp [runPythonScriptStreamed, he],
      by simp [runPythonScriptStreamed, he]⟩

/-- C10 witness: stat on `d/a.py` fails with a permission-style error;
the entry is kept and its failed launch becomes a failed outcome. -/
theorem other_stat_error_keeps_entry_witness :
    "a.py" ∈ resolveScripts statOtherW "d" ["a.py"] ∧
    "a.py" ∉ resolutionWarnings statOtherW "d" ["a.py"] ∧
    (runPythonScriptStreamed runFailW (goJoin "d" "a.py")).Success = false ∧
    (runPythonScriptStreamed runFailW (goJoin "d" "a.py")).Error
      = some (GoError.exitError 2) := by
  have h := other_stat_error_keeps_entry statOtherW "d" "a.py" ["a.py"]
    (by decide) (by decide)
  exact ⟨h.1, h.2.1, (h.2.2.2 runFailW (GoError.exitError 2) rfl).1,
    (h.2.2.2 runFailW (GoError.exitError 2) rfl).2⟩

/-- C7 (amended): in Sequential mode outcomes are produced in exactly
catalog order (the result list is the in-order map over the resolved
list), the event trace is the in-order concatenation of per-task blocks —
so each task finishes before the next task starts — and the block of the
task at zero-based index `i` computes the progress fraction `(i+1)/total`
before (and displays it inside) the launch announcement, and reports the
same fraction again after the task finishes. -/
theorem sequential_schedule (run : ExecOracle) (scriptDir : String)
    (valid : List String) (i : Nat) (h : i < valid.length) :
    (sequentialRun run scriptDir valid).1
        = valid.map (fun s => runPythonScriptStreamed run (goJoin scriptDir s)) ∧
    (sequentialRun run scriptDir valid).2
        = (valid.enum.map (seqTaskBlock run scriptDir valid.length)).flatten ∧
    (valid.enum.map (seqTaskBlock run scriptDir valid.length)).getD i []
        = [SeqEvent.computeProgress (i + 1) valid.length,
           SeqEvent.startLine
             (scriptDisplayName (goJoin scriptDir (valid.getD i "")))
             (i + 1) valid.length,
           SeqEvent.execChild (goJoin scriptDir (valid.getD i "")),
           SeqEvent.finishLine
             (scriptDisplayName (goJoin scriptDir (valid.getD i "")))
             (i + 1) valid.length
             ((run (goJoin scriptDir (valid.getD i ""))).err.isNone)] := by
  refine ⟨by rw [sequentialRun_eq], by rw [sequentialRun_eq], ?_⟩
  rw [List.getD_eq_getElem valid "" h,
    List.getD_eq_getElem _ [] (by simpa using h), List.getElem_map,
    List.getElem_enum]
  exact seqTaskBlock_eq run scriptDir valid.length i _

/-- C7 witness: a concrete two-task sequential run, looking at index 0. -/
theorem sequential_schedule_witness :
    (sequentialRun runOkW "d" ["a.py", "b.py"]).1
        = ["a.py", "b.py"].map
            (fun s => runPythonScriptStreamed runOkW (goJoin "d" s)) ∧
    ((["a.py", "b.py"] : List String).enum.map
        (seqTaskBlock runOkW "d" (["a.py", "b.py"] : List String).length)).getD 0 []
        = [SeqEvent.computeProgress 1 2,
           SeqEvent.startLine "a" 1 2,
           SeqEvent.execChild "d/a.py",
           SeqEvent.finishLine "a" 1 2 true] := by
  have h := sequential_schedule runOkW "d" ["a.py", "b.py"] 0 (by decide)
  refine ⟨h.1, ?_⟩
  rw [h.2.2]
  decide

/-- C7 counterexample: the claim as stated says the progress fraction is
computed after the task's launch announcement; in the sequential variant
the fraction is computed first and already displayed inside the launch
announcement. In a concrete one-task run the computeProgress event sits
at index 0 of the trace, strictly before the startLine announcement at
index 1, so the announcement does not precede the computation. -/
theorem sequential_progress_not_computed_after_announcement :
    (sequentialRun runOkW "d" ["a.py"]).2.findIdx isComputeEvent = 0 ∧
    (sequentialRun runOkW "d" ["a.py"]).2.findIdx isStartEvent = 1 ∧
    ¬ ((sequentialRun runOkW "d" ["a.py"]).2.findIdx isStartEvent
        < (sequentialRun runOkW "d" ["a.py"]).2.findIdx isComputeEvent) := by
  exact ⟨by decide, by decide, by decide⟩

/-- C2: in Parallel mode, in any reachable state where the aggregation
loop has drained the channel, the channel had been closed beforehand (and
closing requires the wait-group barrier: every goroutine done), and the
list the aggregator read is a permutation of the per-descriptor outcomes:
exactly one outcome per submitted descriptor, none lost, none duplicated.
Moreover the channel never holds more than `tasks.length` results, and
the resolved-task count never exceeds the catalog length used as channel
capacity in `run_all.go`; in Sequential mode aggregation likewise
receives exactly one outcome per resolved task. -/
theorem aggregation_completeness {tasks : List String} {run : ExecOracle}
    {cap : Nat} {s : ParState} (h : ParReachable tasks run cap s) :
    (∀ out, s.aggregated = some out →
      s.closed = true ∧
      out.length = tasks.length ∧
      out.Perm (tasks.map (runPythonScriptBuffered run))) ∧
    s.buffer.length ≤ tasks.length ∧
    (∀ (stat : StatOracle) (scriptDir : String),
      (resolveScripts stat scriptDir pythonScriptsParallel).length
        ≤ pythonScriptsParallel.length) ∧
    (∀ (scriptDir : String) (valid : List String),
      ((sequentialRun run scriptDir valid).1).length = valid.length) := by
  obtain ⟨⟨done, hbuf, hcomp, hperm⟩, hcl, hagg, hlog⟩ := par_invariant h
  have hre : (List.range tasks.length).map (parOutcome tasks run)
      = tasks.map (runPythonScriptBuffered run) :=
    range_map_getD tasks "" (runPythonScriptBuffered run)
  refine ⟨?_, ?_, ?_, ?_⟩
  · intro out hout
    obtain ⟨hclosed, houtbuf⟩ := hagg out hout
    have hrem : s.remaining = [] := hcl hclosed
    rw [hrem, List.append_nil] at hperm
    have hlen : done.length = tasks.length := by
      simpa using hperm.length_eq
    have hperm2 : (done.map (parOutcome tasks run)).Perm
        ((List.range tasks.length).map (parOutcome tasks run)) :=
      hperm.map _
    rw [hre] at hperm2
    refine ⟨hclosed, ?_, ?_⟩
    · rw [houtbuf, hbuf, List.length_map, hlen]
    · rw [houtbuf, hbuf]
      exact hperm2
  · have hlen2 : done.length + s.remaining.length = tasks.length := by
      have h3 := hperm.length_eq
      simpa using h3
    rw [hbuf, List.length_map]
    omega
  · intro stat scriptDir
    exact List.length_filter_le _ _
  · intro scriptDir valid
    rw [sequentialRun_eq]
    simp

/-- C2 witness: the one-task parallel run that reached aggregation. -/
theorem aggregation_completeness_witness :
    sW3.closed = true ∧
    ([resOkW] : List ScriptResult).length = (["a.py"] : List String).length ∧
    ([resOkW] : List ScriptResult).Perm
      ((["a.py"] : List String).map (runPythonScriptBuffered runOkW)) ∧
    sW3.buffer.length ≤ (["a.py"] : List String).length := by
  have h := aggregation_completeness sW3_reachable
  have h1 := h.1 [resOkW] rfl
  exact ⟨h1.1, h1.2.1, h1.2.2, h.2.1⟩

/-- C9: the periodic progress reporter is a pure observer. One tick
leaves the counter, the channel, the outstanding-task set, the closed
flag and the aggregation state untouched; while the loaded counter is
below the total of resolved tasks it appends exactly one
`(completed, total)` snapshot and keeps running; as soon as it observes
the counter at the total it prints nothing and terminates its loop;
every snapshot ever printed was taken with `completed` strictly below the
total; and once the reporter has terminated, no transition of the system
prints another snapshot or restarts it. -/
theorem progress_reporter_pure_observer {tasks : List String}
    {run : ExecOracle} {cap : Nat} {s : ParState}
    (h : ParReachable tasks run cap s) :
    (reporterTickTarget tasks.length s).completed = s.completed ∧
    (reporterTickTarget tasks.length s).buffer = s.buffer ∧
    (reporterTickTarget tasks.length s).remaining = s.remaining ∧
    (reporterTickTarget tasks.length s).closed = s.closed ∧
    (reporterTickTarget tasks.length s).aggregated = s.aggregated ∧
    (s.completed < tasks.length →
      (reporterTickTarget tasks.length s).reporterLog
          = s.reporterLog ++ [(s.completed, tasks.length)] ∧
      (reporterTickTarget tasks.length s).reporterDone = s.reporterDone) ∧
    (tasks.length ≤ s.completed →
      (reporterTickTarget tasks.length s).reporterLog = s.reporterLog ∧
      (reporterTickTarget tasks.length s).reporterDone = true) ∧
    (∀ p ∈ s.reporterLog, p.1 < tasks.length ∧ p.2 = tasks.length) ∧
    (∀ s', ParStep tasks run cap s s' → s.reporterDone = true →
      s'.reporterLog = s.reporterLog ∧ s'.reporterDone = true) := by
  obtain ⟨_, _, _, hlog⟩ := par_invariant h
  refine ⟨reporterTickTarget_completed _ _, reporterTickTarget_buffer _ _,
    reporterTickTarget_remaining _ _, reporterTickTarget_closed _ _,
    reporterTickTarget_aggregated _ _,
    fun hlt => reporterTickTarget_of_lt _ _ hlt,
    fun hge => reporterTickTarget_of_ge _ _ (by omega),
    hlog, ?_⟩
  intro s' hstep hdone
  cases hstep with
  | taskComplete i hmem hcap => exact ⟨rfl, hdone⟩
  | closeChannel hdone2 hopen => exact ⟨rfl, hdone⟩
  | aggregateRead hclosed hnone => exact ⟨rfl, hdone⟩
  | reporterTick hlive =>
    rw [hdone] at hlive
    exact absurd hlive (by simp)

/-- C9 witness: one tick from the spawn point of a one-task run. -/
theorem progress_reporter_pure_observer_witness :
    (reporterTickTarget (["a.py"] : List String).length (parInit 1)).completed
        = (parInit 1).completed ∧
    (reporterTickTarget (["a.py"] : List String).length (parInit 1)).buffer
        = (parInit 1).buffer ∧
    ((reporterTickTarget (["a.py"] : List String).length (parInit 1)).reporterLog
        = (parInit 1).reporterLog
            ++ [((parInit 1).completed, (["a.py"] : List String).length)] ∧
      (reporterTickTarget (["a.py"] : List String).length (parInit 1)).reporterDone
        = (parInit 1).reporterDone) := by
  have h := progress_reporter_pure_observer
    (@ParReachable.init ["a.py"] runOkW 26)
  exact ⟨h.1, h.2.1, h.2.2.2.2.2.1 (by decide)⟩
